import Mathlib

/-!
Verification development for `berp`, an ASN.1 DER/BER symmetric parser/encoder
(`src/berp/__init__.py`).  The Python source is shallowly embedded below: bytes
are `Nat`s (always < 256 in real buffers; the decoder's arithmetic agrees with
Python on such inputs), byte strings are `List Nat`, fallible operations return
`Except DecodeErr`, and the recursive decoder is written with an explicit fuel
parameter so that its termination on every finite buffer is itself a theorem.

Python exceptions are mapped to `DecodeErr` constructors:
  IndexError (pop / index on exhausted bytearray)      -> indexError
  ValueError "truncated der header"                    -> truncatedHeader
  ValueError "bad der length"                          -> badLength
  ValueError "Truncated DER object"                    -> truncatedInput
  RuntimeError "truncated indefinite BER tag (no EOC)" -> unterminatedIndefinite
  AttributeError (cls has no _decode_indefinite)       -> attributeError
  AssertionError ("Null tag with data")                -> assertionError
  UnicodeDecodeError (str.decode failure)              -> encodingError
-/

inductive DecodeErr where
  | indexError
  | truncatedHeader
  | badLength
  | truncatedInput
  | unterminatedIndefinite
  | attributeError
  | assertionError
  | encodingError
deriving DecidableEq, Repr

/-- Python `int.bit_length` for non-negative integers, written with an explicit
fuel argument (the number itself bounds the recursion depth) so that it is
structurally recursive and kernel-reducible.  `bitLenF f n = bit_length n`
whenever `n ≤ f`. -/
def bitLenF : Nat → Nat → Nat
  | 0, _ => 0
  | f + 1, n => if n = 0 then 0 else bitLenF f (n / 2) + 1

/-- Python `n.bit_length()` (for `n ≥ 0`): number of bits needed, `0` for `0`. -/
def pyBitLen (n : Nat) : Nat := bitLenF n n

/-- Big-endian unsigned `n.to_bytes(k, 'big')` (Python raises OverflowError when
`n ≥ 256 ^ k`; every call site below provides a sufficiently large `k`, which we
prove where needed, so the truncating form agrees with the source). -/
def natToBE : Nat → Nat → List Nat
  | 0, _ => []
  | k + 1, n => natToBE k (n / 256) ++ [n % 256]

/-- Big-endian unsigned `int.from_bytes(data, 'big')`. -/
def natFromBE (l : List Nat) : Nat := l.foldl (fun acc b => acc * 256 + b) 0

/-- `int.from_bytes(data, 'big', signed=True)`: two's-complement; the sign is
the top bit of the first byte; empty input decodes to `0`. -/
def intFromBE (l : List Nat) : Int :=
  match l with
  | [] => 0
  | b :: _ =>
    if b.testBit 7 then (natFromBE l : Int) - (2 ^ (8 * l.length) : Nat)
    else (natFromBE l : Int)

/-- Signed `v.to_bytes(k, 'big', signed=True)`: two's-complement residue. -/
def intToBE (k : Nat) (v : Int) : List Nat :=
  natToBE k (v % ((2 ^ (8 * k) : Nat) : Int)).toNat

/-- Loop of `encode_varint` (source lines 15-17): emits the remaining base-128
groups, least significant first, continuation bit 0x80 set on each.  Fuel-based
(`m` itself bounds the depth); `encVarLoopF f m` is the loop for any `m ≤ f`. -/
def encVarLoopF : Nat → Nat → List Nat
  | 0, _ => []
  | f + 1, m => if m = 0 then [] else ((m &&& 0x7f) ||| 0x80) :: encVarLoopF f (m >>> 7)

/-- `encode_varint(n)` (source lines 12-19): `res = [n & 0x7f]` plus the
continuation groups of `n >> 7`, reversed into big-endian order. -/
def encodeVarint (n : Nat) : List Nat :=
  ((n &&& 0x7f) :: encVarLoopF (n >>> 7) (n >>> 7)).reverse

/-- Loop of `decode_varint` (source lines 8-9).  `cur` is the byte just popped
(whose low bits are already in `acc`); while its continuation bit is set the
next byte is folded in; an exhausted buffer while the bit is set is Python's
IndexError on `bytearr[0]`. -/
def dvLoop (acc cur : Nat) : List Nat → Except DecodeErr (Nat × List Nat)
  | [] => if cur.testBit 7 then .error .indexError else .ok (acc, [])
  | b :: rest1 =>
    if cur.testBit 7 then dvLoop ((acc <<< 7) ||| (b &&& 0x7f)) b rest1
    else .ok (acc, b :: rest1)

/-- `decode_varint(bytearr)` (source lines 6-10): returns the decoded value and
the unconsumed suffix of the buffer. -/
def decodeVarint : List Nat → Except DecodeErr (Nat × List Nat)
  | [] => .error .indexError
  | b :: rest => dvLoop (b &&& 0x7f) b rest

/-!
## Node tree

`ASN1Object` instances are modelled as `Node`: the identifying triple
(`tag`, `cons`, `cls`), the decoded `value`, and the bookkeeping fields
`header_length`, `length` and `_indefinite` set by `from_bytes`
(source lines 167-170).  `Val` is the variant of decoded values: raw bytes
(the base `_decode_value`, inherited by OctetString, BitString, EOC and all
generic primitive fallback classes), Boolean, Integer, Null, OID arc tuples,
validated text bytes (the string classes store the decoded text; since strict
UTF-8/ASCII decoding is injective and re-encoding is its inverse, the value is
represented by its byte encoding), and child lists for constructed types.
-/

mutual
inductive Node where
  | mk (tag : Nat) (cons : Bool) (cls : Nat) (value : Val)
       (headerLength : Nat) (length : Nat) (indefinite : Bool)
inductive Val where
  | raw (bs : List Nat)
  | boolean (b : Bool)
  | int (i : Int)
  | null
  | oid (arcs : List Nat)
  | str (bs : List Nat)
  | children (xs : List Node)
end

def Node.tag : Node → Nat | .mk t _ _ _ _ _ _ => t
def Node.cons : Node → Bool | .mk _ c _ _ _ _ _ => c
def Node.cls : Node → Nat | .mk _ _ k _ _ _ _ => k
def Node.value : Node → Val | .mk _ _ _ v _ _ _ => v
def Node.headerLength : Node → Nat | .mk _ _ _ _ h _ _ => h
def Node.length : Node → Nat | .mk _ _ _ _ _ l _ => l
def Node.indefinite : Node → Bool | .mk _ _ _ _ _ _ i => i

/-- `isinstance(decoded, EOC)` (source line 225): a decoded child is an `EOC`
instance exactly when `find_class` resolved its header triple to the `EOC`
class, i.e. tag number 0, primitive, Universal class (`EOC` has no subclasses:
the dynamic fallback in `find_class` never subclasses a fully-tagged class,
since an exact triple match returns before the fallback is reached). -/
def Node.isEOC : Node → Bool
  | .mk tag cons cls _ _ _ _ => tag == 0 && cons == false && cls == 0

/-!
## TLV header codec

`_decode_header` (source lines 128-147) in two stages: the tag byte (with the
`BitField` accesses `head[6:8]`, `head[5]`, `head[:5]`, which for a byte are
the two top bits, bit 5, and the low five bits) plus the extended-tag varint,
then the length forms.
-/

/-- First stage of `_decode_header`: pop the head byte, split its bit fields,
and read the extended tag varint when the 5-bit tag field is all ones
(source lines 130-133).  Returns `(tag, cons, cls, rest)`. -/
def decodeTag : List Nat → Except DecodeErr (Nat × Bool × Nat × List Nat)
  | [] => .error .indexError
  | h :: rest =>
    let cls := (h >>> 6) &&& 3
    let cons := h.testBit 5
    let tag0 := h &&& 0x1f
    if tag0 = 0x1f then
      (decodeVarint rest).map (fun p => (p.1, cons, cls, p.2))
    else .ok (tag0, cons, cls, rest)

/-- Second stage of `_decode_header` (source lines 134-147): the length byte,
long-form lengths, and the indefinite marker `0x80` (returned as `none`).
Returns `(tag, cons, cls, length?, rest)`. -/
def decodeHeader (data : List Nat) :
    Except DecodeErr (Nat × Bool × Nat × Option Nat × List Nat) :=
  match decodeTag data with
  | .error e => .error e
  | .ok (tag, cons, cls, rest) =>
    match rest with
    | [] => .error .truncatedHeader
    | l :: rest2 =>
      if 0x80 < l then
        let k := l &&& 0x7f
        if rest2.length < k then .error .badLength
        else .ok (tag, cons, cls, some (natFromBE (rest2.take k)), rest2.drop k)
      else if l = 0x80 then .ok (tag, cons, cls, none, rest2)
      else .ok (tag, cons, cls, some l, rest2)

/-!
## Type registry

`find_class` (source lines 176-195) walks the `ASN1Object` subclass tree for an
exact `(TAG, CONS, CLASS)` triple match and otherwise synthesizes (and, via
Python's subclass registration, memoizes) a fallback class whose triple is
exactly the request, inheriting the nearest matching base.  Tracing the walk
over the class hierarchy of the source gives this total function from triples
to decode/encode behaviour:
  * every constructed triple resolves to a subclass of `Constructed`
    (`Sequence`, `Set`, or a fallback created under `UniversalConstructed` /
    `Constructed`), all with the same child-list `_decode_value`;
  * Universal primitive triples resolve to the registered leaf classes
    (Boolean 1, Integer 2, BitString 3, OctetString 4, Null 5, OID 6,
    UTF8String 12, PrintableString 19, IA5String 22, GeneralString 27,
    UniversalString 28) and otherwise (including EOC 0, whose class inherits
    the raw-bytes `_decode_value`) to raw-bytes behaviour;
  * all other primitive triples resolve to fallbacks under `Primitive` (or
    `UniversalPrimitive`), i.e. raw-bytes behaviour.
Only `Constructed` subclasses define `_decode_indefinite`; every primitive
resolution lacks it (Python AttributeError when invoked). -/

inductive PrimCodec where
  | raw | boolean | integer | nullc | oidc | utf8 | ascii
deriving DecidableEq, Repr

inductive Codec where
  | prim (p : PrimCodec)
  | childSeq
deriving DecidableEq, Repr

def findClass (tag : Nat) (cons : Bool) (cls : Nat) : Codec :=
  if cons then .childSeq
  else if cls = 0 then
    if tag = 1 then .prim .boolean
    else if tag = 2 then .prim .integer
    else if tag = 5 then .prim .nullc
    else if tag = 6 then .prim .oidc
    else if tag = 12 ∨ tag = 27 ∨ tag = 28 then .prim .utf8
    else if tag = 19 ∨ tag = 22 then .prim .ascii
    else .prim .raw
  else .prim .raw

/-!
## Value codecs (primitive)
-/

/-- Strict UTF-8 validity (RFC 3629), the acceptance set of Python's
`bytes.decode('utf-8')`: rejects surrogates, overlong forms and code points
above U+10FFFF. -/
def utf8Valid : List Nat → Bool
  | [] => true
  | b :: rest =>
    if b < 0x80 then utf8Valid rest
    else if 0xc2 ≤ b ∧ b ≤ 0xdf then
      match rest with
      | c1 :: rest1 => (0x80 ≤ c1 && c1 ≤ 0xbf) && utf8Valid rest1
      | _ => false
    else if 0xe0 ≤ b ∧ b ≤ 0xef then
      match rest with
      | c1 :: c2 :: rest1 =>
        (decide (0x80 ≤ c1 && c1 ≤ 0xbf) &&
         decide (0x80 ≤ c2 && c2 ≤ 0xbf) &&
         !(b == 0xe0 && c1 < 0xa0) && !(b == 0xed && 0x9f < c1)) && utf8Valid rest1
      | _ => false
    else if 0xf0 ≤ b ∧ b ≤ 0xf4 then
      match rest with
      | c1 :: c2 :: c3 :: rest1 =>
        (decide (0x80 ≤ c1 && c1 ≤ 0xbf) &&
         decide (0x80 ≤ c2 && c2 ≤ 0xbf) &&
         decide (0x80 ≤ c3 && c3 ≤ 0xbf) &&
         !(b == 0xf0 && c1 < 0x90) && !(b == 0xf4 && 0x8f < c1)) && utf8Valid rest1
      | _ => false
    else false

/-- The arc loop of `OID._decode_value` (source lines 286-288): repeatedly
`decode_varint` until the buffer is empty.  Fuel-based: each varint consumes at
least one byte, so the initial buffer length bounds the iteration count and
`oidLoopF d.length d` is the loop (the fuel-exhausted case is unreachable). -/
def oidLoopF : Nat → List Nat → Except DecodeErr (List Nat)
  | 0, _ => .ok []
  | f + 1, d =>
    match d with
    | [] => .ok []
    | _ =>
      match decodeVarint d with
      | .error e => .error e
      | .ok (n, d1) => (oidLoopF f d1).map (fun arcs => n :: arcs)

/-- `_decode_value` of the primitive classes:
  * base/raw (source lines 88-89): the data itself;
  * `Boolean` (332-333): `bool(int.from_bytes(data, 'big'))`;
  * `Integer` (319-320): signed big-endian;
  * `Null` (267-269): asserts the data region is empty;
  * `OID` (282-289): `data[0] // 40`, `data[0] % 40` (IndexError on empty
    data), then varint arcs;
  * the string classes (347-348): text decoding, `EncodingError` on invalid
    byte sequences (the decoded text is represented by its bytes). -/
def decodePrim : PrimCodec → List Nat → Except DecodeErr Val
  | .raw, data => .ok (.raw data)
  | .boolean, data => .ok (.boolean (natFromBE data != 0))
  | .integer, data => .ok (.int (intFromBE data))
  | .nullc, data => if data = [] then .ok .null else .error .assertionError
  | .oidc, data =>
    match data with
    | [] => .error .indexError
    | d0 :: rest =>
      (oidLoopF rest.length rest).map (fun arcs => .oid (d0 / 40 :: d0 % 40 :: arcs))
  | .utf8, data => if utf8Valid data then .ok (.str data) else .error .encodingError
  | .ascii, data => if data.all (· < 0x80) then .ok (.str data) else .error .encodingError

/-!
## The recursive decoder

`ASN1Object.from_bytes` (source lines 149-171), `Constructed._decode_value`
(209-215) and `Constructed._decode_indefinite` (217-229) are mutually
recursive.  They are embedded with a fuel parameter decremented at every
recursive call; `none` means the fuel ran out.  Termination within
`data.length + 1` fuel is proved below (claim C9), and `fromBytes` runs the
decoder with exactly that much fuel.
-/

mutual

/-- `ASN1Object.from_bytes(data)` (source lines 149-171). -/
def fromBytesF : Nat → List Nat → Option (Except DecodeErr Node)
  | 0, _ => none
  | fuel + 1, data =>
    match decodeHeader data with
    | .error e => some (.error e)
    | .ok (tag, cons, cls, lenO, arr) =>
      match lenO with
      | some len =>
        if arr.length < len then some (.error .truncatedInput)
        else
          let hl := data.length - arr.length
          match findClass tag cons cls with
          | .childSeq =>
            match childLoopF fuel (arr.take len) [] with
            | none => none
            | some (.error e) => some (.error e)
            | some (.ok xs) =>
              some (.ok (.mk tag cons cls (.children xs) hl (hl + len) false))
          | .prim p =>
            match decodePrim p (arr.take len) with
            | .error e => some (.error e)
            | .ok v => some (.ok (.mk tag cons cls v hl (hl + len) false))
      | none =>
        let hl := data.length - arr.length
        match findClass tag cons cls with
        | .childSeq =>
          match indefLoopF fuel arr 0 [] with
          | none => none
          | some (.error e) => some (.error e)
          | some (.ok (xs, off)) =>
            some (.ok (.mk tag cons cls (.children xs) hl (hl + off) true))
        | .prim _ => some (.error .attributeError)

/-- `Constructed._decode_value(data)` (source lines 209-215): decode children
until the value region is exhausted, advancing by each child's `length`. -/
def childLoopF : Nat → List Nat → List Node → Option (Except DecodeErr (List Node))
  | 0, _, _ => none
  | fuel + 1, data, acc =>
    match data with
    | [] => some (.ok acc)
    | _ =>
      match fromBytesF fuel data with
      | none => none
      | some (.error e) => some (.error e)
      | some (.ok nd) => childLoopF fuel (data.drop nd.length) (acc ++ [nd])

/-- `Constructed._decode_indefinite(data)` (source lines 217-229): decode
children from successive offsets, stopping after (and including) an `EOC`
child; buffer exhaustion without an `EOC` is the `RuntimeError`. -/
def indefLoopF : Nat → List Nat → Nat → List Node →
    Option (Except DecodeErr (List Node × Nat))
  | 0, _, _, _ => none
  | fuel + 1, data, offset, acc =>
    if offset < data.length then
      match fromBytesF fuel (data.drop offset) with
      | none => none
      | some (.error e) => some (.error e)
      | some (.ok nd) =>
        if nd.isEOC then some (.ok (acc ++ [nd], offset + nd.length))
        else indefLoopF fuel data (offset + nd.length) (acc ++ [nd])
    else some (.error .unterminatedIndefinite)

end

/-- `parse` / `ASN1Object.from_bytes` on a materialized buffer: the fuel
`data.length + 1` always suffices (claim C9), so the default branch is
unreachable. -/
def fromBytes (data : List Nat) : Except DecodeErr Node :=
  (fromBytesF (data.length + 1) data).getD (.error .indexError)

/-!
## Encoders
-/

/-- The header byte assembled by the `BitField` in `_encode_header` (source
lines 111-114): class into bits 6-7, constructed flag into bit 5, (clamped)
tag into bits 0-4; the fields are disjoint so the successive `__setitem__`
calls OR them together. -/
def headByte (tagField : Nat) (cons : Bool) (cls : Nat) : Nat :=
  (cls <<< 6) ||| (((if cons then 1 else 0) <<< 5) ||| tagField)

/-- `_encode_header(length)` (source lines 106-126): tag byte (with `0x1f` and
a varint for extended tags), then the length: `0x80` for indefinite (`none`),
a single byte below `0x80`, otherwise `0x80 | byteCount` plus the big-endian
length bytes with `byteCount = (bit_length + 7) // 8`. -/
def encodeHeader (tag : Nat) (cons : Bool) (cls : Nat) (len : Option Nat) : List Nat :=
  let tagField := if 0x1f ≤ tag then 0x1f else tag
  let base := headByte tagField cons cls ::
    (if tagField = 0x1f then encodeVarint tag else [])
  match len with
  | none => base ++ [0x80]
  | some l =>
    if l < 0x80 then base ++ [l]
    else
      let byteCount := (pyBitLen l + 7) / 8
      base ++ (0x80 ||| byteCount) :: natToBE byteCount l

/-- `Boolean._encode_value` (source lines 335-340): `True` is first replaced by
`0xff`, then the minimal unsigned big-endian encoding of the int is produced --
for `False` (int 0) the bit length is 0, so the byte count is 0 and the result
is EMPTY, not `0x00`. -/
def boolEncodeBytes (value : Bool) : List Nat :=
  let v : Nat := if value then 0xff else 0
  natToBE ((pyBitLen v + 7) / 8) v

/-- `Integer._encode_value` (source lines 322-325): two's-complement big-endian
with byte count `(value.bit_length() + 8) // 8` (Python's `bit_length` of a
negative int is that of its absolute value). -/
def intEncodeBytes (value : Int) : List Nat :=
  intToBE ((pyBitLen value.natAbs + 8) / 8) value

/-- `OID._encode_value` (source lines 291-296): first byte `arc0 * 40 + arc1`,
then each remaining arc varint-encoded.  (With fewer than two arcs Python
raises IndexError; nodes produced by the decoder always carry at least two
arcs, so the catch-all is unreachable there.) -/
def oidEncodeBytes : List Nat → List Nat
  | a0 :: a1 :: rest => (a0 * 40 + a1) :: (rest.map encodeVarint).flatten
  | _ => []

mutual

/-- `ASN1Object.__bytes__` (source lines 99-104): header for `len(self.data)`
(or the indefinite marker when the node was decoded from the indefinite form),
then the re-encoded value. -/
def Node.toBytes : Node → List Nat
  | .mk tag cons cls v _ _ indef =>
    encodeHeader tag cons cls (if indef then none else some (encodeVal v).length) ++
      encodeVal v

/-- `_encode_value` of each class: raw bytes for the base class (OctetString,
BitString, EOC, generic primitives), the Boolean/Integer/Null/OID encoders,
text re-encoding (identity on the stored bytes), and child concatenation for
`Constructed` (source lines 206-207). -/
def encodeVal : Val → List Nat
  | .raw bs => bs
  | .boolean b => boolEncodeBytes b
  | .int i => intEncodeBytes i
  | .null => []
  | .oid arcs => oidEncodeBytes arcs
  | .str bs => bs
  | .children xs => encodeList xs

def encodeList : List Node → List Nat
  | [] => []
  | x :: xs => x.toBytes ++ encodeList xs

end

/-!
## Node equality

`ASN1Object.__eq__` (source lines 197-201): the `(TAG, CLASS, CONS)` triples
must agree and the values must compare equal; for constructed values Python
compares the child lists elementwise with `__eq__` again, so the bookkeeping
fields (`header_length`, `length`, `_indefinite`) never participate at any
depth. -/

mutual

def nodeEqb : Node → Node → Bool
  | .mk t1 c1 k1 v1 _ _ _, .mk t2 c2 k2 v2 _ _ _ =>
    t1 == t2 && k1 == k2 && c1 == c2 && valEqb v1 v2

def valEqb : Val → Val → Bool
  | .raw a, .raw b => a == b
  | .boolean a, .boolean b => a == b
  | .int a, .int b => a == b
  | .null, .null => true
  | .oid a, .oid b => a == b
  | .str a, .str b => a == b
  | .children a, .children b => childrenEqb a b
  | _, _ => false

def childrenEqb : List Node → List Node → Bool
  | [], [] => true
  | a :: as, b :: bs => nodeEqb a b && childrenEqb as bs
  | _, _ => false

end

/-!
## Arithmetic readings of the bit operations
-/

lemma and127_eq_mod (n : Nat) : n &&& 127 = n % 128 := by
  have h := Nat.and_pow_two_sub_one_eq_mod n 7
  norm_num at h
  exact h

lemma shr7_eq_div (n : Nat) : n >>> 7 = n / 128 := by
  have h := Nat.shiftRight_eq_div_pow n 7
  norm_num at h
  exact h

lemma shl_lor_eq (a r : Nat) (h : r < 128) : (a <<< 7) ||| r = a * 128 + r := by
  have h2 := Nat.mul_add_lt_is_or (i := 7) (b := r) (by norm_num [h]) a
  rw [Nat.shiftLeft_eq]
  norm_num at h2 ⊢
  rw [Nat.mul_comm a 128]
  omega

lemma lor128_eq_add (r : Nat) (h : r < 128) : r ||| 128 = r + 128 := by
  have h2 := Nat.mul_add_lt_is_or (i := 7) (b := r) (by norm_num [h]) 1
  norm_num at h2
  rw [Nat.lor_comm]
  omega

lemma testBit7_true {x : Nat} (h1 : 128 ≤ x) (h2 : x < 256) : x.testBit 7 = true := by
  rw [Nat.testBit_to_div_mod]
  norm_num
  omega

lemma testBit7_false {x : Nat} (h : x < 128) : x.testBit 7 = false := by
  rw [Nat.testBit_to_div_mod]
  norm_num
  omega

/-!
## Varint codec lemmas (towards claim C5)
-/

lemma encVarLoopF_zero (f : Nat) : encVarLoopF f 0 = [] := by
  cases f <;> simp [encVarLoopF]

lemma encVarLoopF_stable (f : Nat) : ∀ g m, m ≤ f → m ≤ g → encVarLoopF f m = encVarLoopF g m := by
  induction f with
  | zero => intro g m hf _; interval_cases m; simp [encVarLoopF_zero]
  | succ f ih =>
    intro g m hf hg
    rcases Nat.eq_zero_or_pos m with h0 | hpos
    · subst h0; simp [encVarLoopF_zero]
    · obtain ⟨g1, rfl⟩ : ∃ g1, g = g1 + 1 := ⟨g - 1, by omega⟩
      have hm : ¬ m = 0 := by omega
      simp only [encVarLoopF, hm, if_false]
      have hd : m >>> 7 ≤ f := by
        rw [shr7_eq_div]
        have := Nat.div_lt_self hpos (show 1 < 128 by norm_num)
        omega
      have hd2 : m >>> 7 ≤ g1 := by
        rw [shr7_eq_div]
        have := Nat.div_lt_self hpos (show 1 < 128 by norm_num)
        omega
      rw [ih g1 (m >>> 7) hd hd2]

/-- The continuation groups are the base-128 digits plus `0x80`, so lie in
`[128, 256)`. -/
lemma encVarLoopF_mem (f : Nat) : ∀ m, ∀ g ∈ encVarLoopF f m, 128 ≤ g ∧ g < 256 := by
  induction f with
  | zero => intro m g hg; simp [encVarLoopF] at hg
  | succ f ih =>
    intro m g hg
    by_cases hm : m = 0
    · simp [encVarLoopF, hm] at hg
    · simp only [encVarLoopF, hm, if_false, List.mem_cons] at hg
      rcases hg with hg | hg
      · subst hg
        rw [and127_eq_mod, lor128_eq_add _ (Nat.mod_lt _ (by norm_num))]
        have := Nat.mod_lt m (y := 128) (by norm_num)
        omega
      · exact ih _ g hg

/-- Folding the decoder step over the reversed groups of `m` recovers `m`. -/
lemma encVarLoopF_foldl (f : Nat) : ∀ m, m ≤ f → ∀ acc,
    List.foldl (fun a b => a * 128 + b % 128) acc (encVarLoopF f m).reverse
      = acc * 128 ^ (encVarLoopF f m).length + m := by
  induction f with
  | zero => intro m hf acc; interval_cases m; simp [encVarLoopF_zero]
  | succ f ih =>
    intro m hf acc
    by_cases hm : m = 0
    · subst hm; simp [encVarLoopF_zero]
    · simp only [encVarLoopF, hm, if_false, List.reverse_cons, List.foldl_append,
        List.foldl_cons, List.foldl_nil, List.length_cons]
      have hd : m >>> 7 ≤ f := by
        rw [shr7_eq_div]
        have := Nat.div_lt_self (Nat.pos_of_ne_zero hm) (show 1 < 128 by norm_num)
        omega
      rw [ih _ hd acc]
      rw [and127_eq_mod, lor128_eq_add _ (Nat.mod_lt _ (by norm_num))]
      have hmod : (m % 128 + 128) % 128 = m % 128 := by omega
      rw [hmod, shr7_eq_div]
      have hdm := Nat.div_add_mod m 128
      ring_nf
      omega

/-- When the current byte has a clear continuation bit the loop stops at once. -/
lemma dvLoop_stop (acc cur : Nat) (l : List Nat) (h : cur.testBit 7 = false) :
    dvLoop acc cur l = .ok (acc, l) := by
  cases l <;> simp [dvLoop, h]

/-- One folding step of the loop, in arithmetic form. -/
lemma dvLoop_step (acc cur b : Nat) (rest1 : List Nat) (h : cur.testBit 7 = true) :
    dvLoop acc cur (b :: rest1) = dvLoop (acc * 128 + b % 128) b rest1 := by
  simp only [dvLoop, h, if_true]
  rw [shl_lor_eq _ _ (by rw [and127_eq_mod]; exact Nat.mod_lt _ (by norm_num)),
    and127_eq_mod]

/-- Running the decode loop over bytes with the continuation bit set followed
by one terminator byte folds them all into the accumulator and stops exactly
at the terminator. -/
lemma dvLoop_run (ys : List Nat) : ∀ z rest acc cur, cur.testBit 7 = true →
    (∀ y ∈ ys, y.testBit 7 = true) → z.testBit 7 = false →
    dvLoop acc cur (ys ++ z :: rest)
      = .ok (List.foldl (fun a b => a * 128 + b % 128) acc (ys ++ [z]), rest) := by
  induction ys with
  | nil =>
    intro z rest acc cur hc _ hz
    simp only [List.nil_append, List.foldl_cons, List.foldl_nil]
    rw [dvLoop_step _ _ _ _ hc, dvLoop_stop _ _ _ hz]
  | cons y ys ih =>
    intro z rest acc cur hc hys hz
    simp only [List.cons_append, List.foldl_cons]
    rw [dvLoop_step _ _ _ _ hc]
    exact ih z rest _ y (hys y (by simp)) (fun w hw => hys w (by simp [hw])) hz

lemma encVarLoopF_ne_nil (f m : Nat) (h : m ≠ 0) (hf : m ≤ f) :
    encVarLoopF f m ≠ [] := by
  obtain ⟨f1, rfl⟩ : ∃ f1, f = f1 + 1 := ⟨f - 1, by omega⟩
  simp [encVarLoopF, h]

/-- Round trip of the varint codec: decoding an encoded value consumes the
whole buffer and recovers the value. -/
lemma decodeVarint_encodeVarint (n : Nat) : decodeVarint (encodeVarint n) = .ok (n, []) := by
  unfold encodeVarint
  by_cases h : n < 128
  · have hdiv : n >>> 7 = 0 := by rw [shr7_eq_div]; omega
    rw [hdiv, encVarLoopF_zero]
    simp only [List.reverse_singleton]
    show dvLoop (n &&& 127 &&& 127) (n &&& 127) [] = .ok (n, [])
    simp only [and127_eq_mod, Nat.mod_mod_of_dvd]
    rw [dvLoop_stop _ _ _ (testBit7_false (x := n % 128) (Nat.mod_lt _ (by norm_num)))]
    simp [Nat.mod_eq_of_lt h]
  · set G := encVarLoopF (n >>> 7) (n >>> 7) with hG
    have hne : G ≠ [] := encVarLoopF_ne_nil _ _ (by rw [shr7_eq_div]; omega) le_rfl
    obtain ⟨g, T, hT⟩ : ∃ g T, G.reverse = g :: T := by
      rcases hr : G.reverse with _ | ⟨g, T⟩
      · exact absurd (by simpa using congrArg List.reverse hr) hne
      · exact ⟨g, T, rfl⟩
    have hmemrev : ∀ y ∈ G.reverse, 128 ≤ y ∧ y < 256 := by
      intro y hy
      exact encVarLoopF_mem _ _ y (List.mem_reverse.mp hy)
    have hg : 128 ≤ g ∧ g < 256 := hmemrev g (by rw [hT]; simp)
    have hTmem : ∀ y ∈ T, y.testBit 7 = true := by
      intro y hy
      have := hmemrev y (by rw [hT]; simp [hy])
      exact testBit7_true this.1 this.2
    have hfold := encVarLoopF_foldl (n >>> 7) (n >>> 7) le_rfl
    simp only [List.reverse_cons]
    show decodeVarint (G.reverse ++ [n &&& 127]) = .ok (n, [])
    rw [hT]
    show dvLoop (g &&& 127) g (T ++ [n &&& 127]) = .ok (n, [])
    have hz : (n &&& 127).testBit 7 = false := by
      rw [and127_eq_mod]
      exact testBit7_false (Nat.mod_lt _ (by norm_num))
    have hrun := dvLoop_run T (n &&& 127) [] (g &&& 127) g
      (testBit7_true hg.1 hg.2) hTmem hz
    rw [show T ++ [n &&& 127] = T ++ (n &&& 127) :: [] from rfl, hrun]
    have hfold2 : List.foldl (fun a b => a * 128 + b % 128) (g &&& 127) (T ++ [n &&& 127])
        = List.foldl (fun a b => a * 128 + b % 128) 0 (G.reverse ++ [n &&& 127]) := by
      rw [hT, List.cons_append, List.foldl_cons]
      norm_num [and127_eq_mod]
    rw [hfold2, List.foldl_append, hfold 0]
    simp only [List.foldl_cons, List.foldl_nil, Nat.zero_mul, Nat.zero_add, and127_eq_mod,
      shr7_eq_div]
    have h2 : n % 128 % 128 = n % 128 := by omega
    have h3 : n / 128 * 128 + n % 128 = n := by
      have h1 := Nat.div_add_mod n 128
      omega
    rw [h2, h3]

lemma encVarLoopF_lt (f : Nat) : ∀ m, m ≤ f → m < 128 ^ (encVarLoopF f m).length := by
  induction f with
  | zero => intro m hf; interval_cases m; simp [encVarLoopF_zero]
  | succ f ih =>
    intro m hf
    by_cases hm : m = 0
    · subst hm; simp [encVarLoopF_zero]
    · simp only [encVarLoopF, hm, if_false, List.length_cons, shr7_eq_div]
      have hd : m / 128 ≤ f := by
        have := Nat.div_lt_self (Nat.pos_of_ne_zero hm) (show 1 < 128 by norm_num)
        omega
      have h1 := ih (m / 128) hd
      rw [Nat.pow_succ]
      have h2 := Nat.div_add_mod m 128
      have h3 := Nat.mod_lt m (y := 128) (by norm_num)
      nlinarith

lemma encVarLoopF_pow_le (f : Nat) : ∀ m, m ≤ f → m ≠ 0 →
    128 ^ (encVarLoopF f m).length ≤ 128 * m := by
  induction f with
  | zero => intro m hf hm; omega
  | succ f ih =>
    intro m hf hm
    simp only [encVarLoopF, hm, if_false, List.length_cons, shr7_eq_div]
    by_cases h0 : m / 128 = 0
    · rw [h0, encVarLoopF_zero]
      simp
      omega
    · have hd : m / 128 ≤ f := by
        have := Nat.div_lt_self (Nat.pos_of_ne_zero hm) (show 1 < 128 by norm_num)
        omega
      have h1 := ih (m / 128) hd h0
      rw [Nat.pow_succ]
      have h2 := Nat.div_add_mod m 128
      have h4 : 128 ^ (encVarLoopF f (m / 128)).length * 128 ≤ 128 * (m / 128) * 128 :=
        Nat.mul_le_mul_right _ h1
      refine le_trans h4 ?_
      have h5 : 128 * (m / 128) ≤ m := by omega
      calc 128 * (m / 128) * 128 ≤ m * 128 := Nat.mul_le_mul_right _ h5
        _ = 128 * m := by ring

lemma encVarLoopF_rev_head (f : Nat) : ∀ m, m ≤ f → m ≠ 0 →
    ∃ g T, (encVarLoopF f m).reverse = g :: T ∧ g % 128 ≠ 0 ∧ 128 ≤ g ∧ g < 256 := by
  induction f with
  | zero => intro m hf hm; omega
  | succ f ih =>
    intro m hf hm
    simp only [encVarLoopF, hm, if_false, List.reverse_cons, shr7_eq_div]
    by_cases h0 : m / 128 = 0
    · rw [h0, encVarLoopF_zero]
      refine ⟨(m &&& 127) ||| 128, [], by simp, ?_⟩
      rw [and127_eq_mod, lor128_eq_add _ (Nat.mod_lt _ (by norm_num))]
      have h1 : m < 128 := by omega
      rw [Nat.mod_eq_of_lt h1]
      omega
    · have hd : m / 128 ≤ f := by
        have := Nat.div_lt_self (Nat.pos_of_ne_zero hm) (show 1 < 128 by norm_num)
        omega
      obtain ⟨g, T, hgt, hg1, hg2, hg3⟩ := ih (m / 128) hd h0
      exact ⟨g, T ++ [(m &&& 127) ||| 128], by rw [hgt]; simp, hg1, hg2, hg3⟩

lemma encodeVarint_decomp (n : Nat) :
    encodeVarint n = (encVarLoopF (n >>> 7) (n >>> 7)).reverse ++ [n &&& 127] := by
  simp [encodeVarint]

lemma encodeVarint_length (n : Nat) :
    (encodeVarint n).length = (encVarLoopF (n >>> 7) (n >>> 7)).length + 1 := by
  simp [encodeVarint]

/-- Claim C5.  Encode/decode round trip for the base-128 varint codec, and the shape
of the encoding: big-endian groups, continuation bit on all but the final
byte, zero encoded as a single zero byte, length minimal (the value fits in
`length` groups but, beyond one group, not in `length - 1`, and the leading
group carries a nonzero payload). -/
theorem varint_codec_roundtrip_and_minimal : ∀ n : Nat,
    decodeVarint (encodeVarint n) = .ok (n, [])
    ∧ encodeVarint 0 = [0]
    ∧ (∃ init last, encodeVarint n = init ++ [last]
        ∧ (∀ b ∈ init, 128 ≤ b ∧ b < 256) ∧ last < 128)
    ∧ n < 128 ^ (encodeVarint n).length
    ∧ (n < 128 → (encodeVarint n).length = 1)
    ∧ (128 ≤ n → 128 ^ ((encodeVarint n).length - 1) ≤ n
        ∧ ∀ g, (encodeVarint n).head? = some g → g % 128 ≠ 0) := by
  intro n
  have hlt128 : n % 128 < 128 := Nat.mod_lt _ (by norm_num)
  have hdiv : n >>> 7 = n / 128 := shr7_eq_div n
  refine ⟨decodeVarint_encodeVarint n, rfl, ?_, ?_, ?_, ?_⟩
  · refine ⟨(encVarLoopF (n >>> 7) (n >>> 7)).reverse, n &&& 127, encodeVarint_decomp n,
      ?_, by rw [and127_eq_mod]; exact hlt128⟩
    intro b hb
    exact encVarLoopF_mem _ _ b (List.mem_reverse.mp hb)
  · rw [encodeVarint_length, Nat.pow_succ]
    have h1 := encVarLoopF_lt (n >>> 7) (n >>> 7) le_rfl
    rw [hdiv] at h1 ⊢
    have h2 := Nat.div_add_mod n 128
    nlinarith
  · intro h
    rw [encodeVarint_length]
    have h0 : n >>> 7 = 0 := by omega
    rw [h0, encVarLoopF_zero]
    rfl
  · intro h
    have h0 : n >>> 7 ≠ 0 := by rw [hdiv]; omega
    constructor
    · rw [encodeVarint_length]
      simp only [Nat.add_sub_cancel]
      have h1 := encVarLoopF_pow_le (n >>> 7) (n >>> 7) le_rfl h0
      have h2 : 128 * (n >>> 7) ≤ n := by rw [hdiv]; omega
      exact le_trans h1 h2
    · intro g hg
      obtain ⟨g1, T, hgt, hg1, _, _⟩ := encVarLoopF_rev_head (n >>> 7) (n >>> 7) le_rfl h0
      rw [encodeVarint_decomp n, hgt] at hg
      simp at hg
      exact hg ▸ hg1

/-- Witness for C5 at the concrete input 300. -/
theorem varint_codec_witness :
    decodeVarint (encodeVarint 300) = .ok (300, [])
    ∧ 128 ^ ((encodeVarint 300).length - 1) ≤ 300 := by
  have h := varint_codec_roundtrip_and_minimal 300
  exact ⟨h.1, (h.2.2.2.2.2 (by norm_num)).1⟩

/-!
## Bit length and byte conversion lemmas (towards claim C3)
-/

lemma bitLenF_stable (f : Nat) : ∀ g m, m ≤ f → m ≤ g → bitLenF f m = bitLenF g m := by
  induction f with
  | zero => intro g m hf _; interval_cases m; cases g <;> simp [bitLenF]
  | succ f ih =>
    intro g m hf hg
    rcases Nat.eq_zero_or_pos m with h0 | hpos
    · subst h0; cases g <;> simp [bitLenF]
    · obtain ⟨g1, rfl⟩ : ∃ g1, g = g1 + 1 := ⟨g - 1, by omega⟩
      have hm : ¬ m = 0 := by omega
      simp only [bitLenF, hm, if_false]
      have hlt := Nat.div_lt_self hpos (show 1 < 2 by norm_num)
      rw [ih g1 (m / 2) (by omega) (by omega)]

/-- The defining recursion of Python's `bit_length`. -/
lemma pyBitLen_rec (m : Nat) (h : m ≠ 0) : pyBitLen m = pyBitLen (m / 2) + 1 := by
  unfold pyBitLen
  obtain ⟨f, rfl⟩ : ∃ f, m = f + 1 := ⟨m - 1, by omega⟩
  simp only [bitLenF, h, if_false]
  have hlt := Nat.div_lt_self (Nat.pos_of_ne_zero h) (show 1 < 2 by norm_num)
  rw [bitLenF_stable f ((f + 1) / 2) ((f + 1) / 2) (by omega) le_rfl]

lemma pyBitLen_zero : pyBitLen 0 = 0 := rfl

/-- `n < 2 ^ bit_length n`. -/
lemma pyBitLen_lt (n : Nat) : n < 2 ^ pyBitLen n := by
  induction n using Nat.strong_induction_on with
  | _ n ih =>
    rcases Nat.eq_zero_or_pos n with h0 | hpos
    · subst h0; simp [pyBitLen_zero]
    · rw [pyBitLen_rec n (by omega), Nat.pow_succ]
      have h1 := ih (n / 2) (Nat.div_lt_self hpos (by norm_num))
      have h2 := Nat.div_add_mod n 2
      have h3 : n % 2 < 2 := Nat.mod_lt _ (by norm_num)
      nlinarith

/-- `2 ^ (bit_length n - 1) ≤ n` for nonzero `n`. -/
lemma pyBitLen_le (n : Nat) (h : n ≠ 0) : 2 ^ (pyBitLen n - 1) ≤ n := by
  induction n using Nat.strong_induction_on with
  | _ n ih =>
    rw [pyBitLen_rec n h, Nat.add_sub_cancel]
    rcases Nat.eq_zero_or_pos (n / 2) with h0 | hpos
    · rw [h0, pyBitLen_zero]
      simp
      omega
    · have h1 := ih (n / 2) (Nat.div_lt_self (by omega) (by norm_num)) (by omega)
      rw [pyBitLen_rec (n / 2) (by omega)] at *
      rw [Nat.add_sub_cancel] at h1
      have h2 := Nat.div_add_mod n 2
      calc 2 ^ (pyBitLen (n / 2 / 2) + 1) = 2 ^ pyBitLen (n / 2 / 2) * 2 := Nat.pow_succ ..
        _ ≤ n / 2 * 2 := by
            have := Nat.div_add_mod (n / 2) 2
            have h3 := pyBitLen_lt (n / 2 / 2)
            omega
        _ ≤ n := by omega

lemma natToBE_length (k : Nat) : ∀ n, (natToBE k n).length = k := by
  induction k with
  | zero => intro n; rfl
  | succ k ih => intro n; simp [natToBE, ih]

lemma natFromBE_append (l : List Nat) (b : Nat) :
    natFromBE (l ++ [b]) = natFromBE l * 256 + b := by
  simp [natFromBE, List.foldl_append]

lemma natFromBE_natToBE (k : Nat) : ∀ n, n < 256 ^ k → natFromBE (natToBE k n) = n := by
  induction k with
  | zero =>
    intro n h
    simp only [Nat.pow_zero, Nat.lt_one_iff] at h
    subst h
    rfl
  | succ k ih =>
    intro n h
    simp only [natToBE]
    rw [natFromBE_append, ih (n / 256) ?_]
    · omega
    · rw [Nat.div_lt_iff_lt_mul (by norm_num)]
      rw [Nat.pow_succ] at h
      exact h

lemma natToBE_head (k : Nat) : ∀ n, 1 ≤ k → n < 256 ^ k →
    (natToBE k n).head? = some (n / 256 ^ (k - 1)) := by
  induction k with
  | zero => omega
  | succ k ih =>
    intro n _ h
    simp only [natToBE]
    rcases Nat.eq_zero_or_pos k with h0 | hpos
    · subst h0
      simp only [natToBE, List.nil_append, List.head?_cons, Nat.add_sub_cancel,
        Nat.pow_zero, Nat.div_one]
      rw [Nat.mod_eq_of_lt (by simpa using h)]
    · have hlen : natToBE k (n / 256) ≠ [] := by
        intro hc
        have := natToBE_length k (n / 256)
        rw [hc] at this
        simp at this
        omega
      obtain ⟨b, t, hbt⟩ := List.exists_cons_of_ne_nil hlen
      have hdivlt : n / 256 < 256 ^ k := by
        rw [Nat.div_lt_iff_lt_mul (by norm_num)]
        rw [Nat.pow_succ] at h
        exact h
      have hh := ih (n / 256) hpos hdivlt
      rw [hbt] at hh ⊢
      simp only [List.head?_cons, Option.some.injEq] at hh
      simp only [List.cons_append, List.head?_cons, Option.some.injEq, Nat.add_sub_cancel]
      rw [hh, Nat.div_div_eq_div_mul]
      congr 1
      obtain ⟨k1, rfl⟩ : ∃ k1, k = k1 + 1 := ⟨k - 1, by omega⟩
      rw [Nat.add_sub_cancel, Nat.pow_succ]
      ring

lemma natToBE_pos_head_lt (k n : Nat) (hk : 1 ≤ k) (h : n < 2 ^ (8 * k - 1)) :
    n / 256 ^ (k - 1) < 128 := by
  rw [Nat.div_lt_iff_lt_mul (Nat.pos_pow_of_pos _ (by norm_num))]
  have he : 128 * 256 ^ (k - 1) = 2 ^ (8 * k - 1) := by
    have h1 : (256 : Nat) = 2 ^ 8 := by norm_num
    have h2 : (128 : Nat) = 2 ^ 7 := by norm_num
    rw [h1, h2, ← Nat.pow_mul, ← Nat.pow_add]
    congr 1
    omega
  omega

lemma natToBE_neg_head_ge (k n : Nat) (hk : 1 ≤ k) (h1 : 2 ^ (8 * k - 1) ≤ n) :
    128 ≤ n / 256 ^ (k - 1) := by
  rw [Nat.le_div_iff_mul_le (Nat.pos_pow_of_pos _ (by norm_num))]
  have he : 128 * 256 ^ (k - 1) = 2 ^ (8 * k - 1) := by
    have h2 : (256 : Nat) = 2 ^ 8 := by norm_num
    have h3 : (128 : Nat) = 2 ^ 7 := by norm_num
    rw [h2, h3, ← Nat.pow_mul, ← Nat.pow_add]
    congr 1
    omega
  omega

lemma natToBE_head_lt_256 (k n : Nat) (hk : 1 ≤ k) (h : n < 256 ^ k) :
    n / 256 ^ (k - 1) < 256 := by
  rw [Nat.div_lt_iff_lt_mul (Nat.pos_pow_of_pos _ (by norm_num))]
  have he : 256 * 256 ^ (k - 1) = 256 ^ k := by
    obtain ⟨k1, rfl⟩ : ∃ k1, k = k1 + 1 := ⟨k - 1, by omega⟩
    rw [Nat.add_sub_cancel, Nat.pow_succ]
    ring
  omega

/-- Two's-complement round trip at a fixed width: any integer strictly within
the signed range of `k` bytes is recovered by the signed decoder. -/
lemma intFromBE_intToBE (k : Nat) (v : Int) (hk : 1 ≤ k)
    (hlo : -((2 ^ (8 * k - 1) : Nat) : Int) ≤ v)
    (hhi : v < ((2 ^ (8 * k - 1) : Nat) : Int)) :
    intFromBE (intToBE k v) = v := by
  set M : Nat := 2 ^ (8 * k) with hM
  have hMe : (2 ^ (8 * k - 1) : Nat) * 2 = M := by
    rw [hM, ← Nat.pow_succ]
    congr 1
    omega
  have hPM : ((M : Nat) : Int) = ((2 ^ (8 * k - 1) : Nat) : Int) * 2 := by
    exact_mod_cast hMe.symm
  have hP0 : (0 : Int) < ((2 ^ (8 * k - 1) : Nat) : Int) := by positivity
  set n : Nat := (v % (M : Int)).toNat with hn
  have hvmod : v % (M : Int) = if 0 ≤ v then v else v + M := by
    split
    · exact Int.emod_eq_of_lt (by assumption) (by omega)
    · have hshift : (v + (M : Int)) % (M : Int) = v % (M : Int) :=
        Int.add_emod_self
      rw [← hshift]
      exact Int.emod_eq_of_lt (by omega) (by omega)
  have hnz : (n : Int) = if 0 ≤ v then v else v + M := by
    rw [hn, hvmod]
    split
    · exact Int.toNat_of_nonneg (by assumption)
    · exact Int.toNat_of_nonneg (by omega)
  have hnltZ : (n : Int) < (M : Int) := by
    rw [hnz]
    split <;> omega
  have hnlt256 : n < 256 ^ k := by
    have h256 : (256 : Nat) ^ k = M := by
      rw [hM, show (256 : Nat) = 2 ^ 8 by norm_num, ← Nat.pow_mul]
    rw [h256]
    exact_mod_cast hnltZ
  have hbytes : intToBE k v = natToBE k n := rfl
  obtain ⟨b, t, hbt⟩ := List.exists_cons_of_ne_nil (l := natToBE k n) (by
    intro hc
    have hl := natToBE_length k n
    rw [hc] at hl
    simp at hl
    omega)
  have hhead := natToBE_head k n hk hnlt256
  rw [hbt] at hhead
  simp only [List.head?_cons, Option.some.injEq] at hhead
  have hlenbt : (b :: t).length = k := by rw [← hbt]; exact natToBE_length k n
  have hfrom : natFromBE (b :: t) = n := by rw [← hbt]; exact natFromBE_natToBE k n hnlt256
  rw [hbytes, hbt]
  rcases le_or_lt 0 v with hpos | hneg
  · have hveq : (n : Int) = v := by rw [hnz, if_pos hpos]
    have hnsmall : n < 2 ^ (8 * k - 1) := by
      exact_mod_cast hveq ▸ hhi
    have hblt : b < 128 := by
      rw [hhead]
      exact natToBE_pos_head_lt k n hk hnsmall
    simp only [intFromBE, testBit7_false hblt, Bool.false_eq_true, if_false]
    rw [hfrom]
    exact hveq
  · have hveq : (n : Int) = v + M := by rw [hnz, if_neg (by omega)]
    have hnbig : 2 ^ (8 * k - 1) ≤ n := by
      have h1 : ((2 ^ (8 * k - 1) : Nat) : Int) ≤ (n : Int) := by omega
      exact_mod_cast h1
    have hbge : 128 ≤ b := by
      rw [hhead]
      exact natToBE_neg_head_ge k n hk hnbig
    have hblt256 : b < 256 := by
      rw [hhead]
      exact natToBE_head_lt_256 k n hk hnlt256
    simp only [intFromBE, testBit7_true hbge hblt256, if_true]
    rw [hfrom, hlenbt]
    omega

/-- Claim C3 (amended).  The Integer codec decodes two's-complement signed
big-endian; encoding always inverts decoding, the emitted byte count is
`ceil((bitLength(|v|) + 1) / 8)` with a minimum of one byte, and the three
concrete equations of the specification hold. -/
theorem integer_codec_twos_complement :
    (∀ data, decodePrim .integer data = .ok (.int (intFromBE data)))
    ∧ (∀ v : Int, intFromBE (intEncodeBytes v) = v)
    ∧ (∀ v : Int, (intEncodeBytes v).length = (pyBitLen v.natAbs + 1 + 7) / 8)
    ∧ (∀ v : Int, 1 ≤ (intEncodeBytes v).length)
    ∧ intEncodeBytes 0 = [0x00]
    ∧ intEncodeBytes (-1) = [0xff]
    ∧ intFromBE (intEncodeBytes 300) = 300 := by
  have hlen : ∀ v : Int, (intEncodeBytes v).length = (pyBitLen v.natAbs + 8) / 8 := by
    intro v
    unfold intEncodeBytes intToBE
    exact natToBE_length _ _
  have hkeys : ∀ v : Int, 1 ≤ (pyBitLen v.natAbs + 8) / 8
      ∧ pyBitLen v.natAbs + 1 ≤ 8 * ((pyBitLen v.natAbs + 8) / 8) := by
    intro v
    have hdm := Nat.div_add_mod (pyBitLen v.natAbs + 8) 8
    have hm : (pyBitLen v.natAbs + 8) % 8 < 8 := Nat.mod_lt _ (by norm_num)
    omega
  have hround : ∀ v : Int, intFromBE (intEncodeBytes v) = v := by
    intro v
    set k : Nat := (pyBitLen v.natAbs + 8) / 8 with hk
    obtain ⟨hk1, hk2⟩ := hkeys v
    have ha : v.natAbs < 2 ^ pyBitLen v.natAbs := pyBitLen_lt _
    have hble : (2 : Nat) ^ pyBitLen v.natAbs ≤ 2 ^ (8 * k - 1) :=
      Nat.pow_le_pow_right (by norm_num) (by omega)
    have habs : ((v.natAbs : Nat) : Int) < ((2 ^ (8 * k - 1) : Nat) : Int) := by
      exact_mod_cast lt_of_lt_of_le ha hble
    have hcast : ((v.natAbs : Nat) : Int) = |v| := Int.natCast_natAbs v
    have hhi : v < ((2 ^ (8 * k - 1) : Nat) : Int) :=
      lt_of_le_of_lt (le_trans (le_abs_self v) (le_of_eq hcast.symm)) habs
    have hlo : -((2 ^ (8 * k - 1) : Nat) : Int) ≤ v := by
      have h1 : -((2 ^ (8 * k - 1) : Nat) : Int) ≤ -|v| := by
        rw [← hcast]
        omega
      exact le_trans h1 (neg_abs_le v)
    exact intFromBE_intToBE k v hk1 hlo hhi
  refine ⟨fun data => rfl, hround, ?_, ?_, rfl, rfl, hround 300⟩
  · intro v
    rw [hlen v]
  · intro v
    rw [hlen v]
    exact (hkeys v).1

/-- Claim C3 counterexample.  The encoder is not minimal-length at `-128`: it emits
the two bytes `FF 80` although the single byte `80` already decodes to `-128`
under the same two's-complement reading. -/
theorem integer_encode_not_minimal_at_neg128 :
    intEncodeBytes (-128) = [0xff, 0x80]
    ∧ intFromBE [0x80] = -128
    ∧ (intEncodeBytes (-128)).length = 2 := ⟨rfl, rfl, rfl⟩

/-- Claim C2 (code bug).  The Boolean decoder maps a nonzero value region to `True`
and a zero region to `False`, and `True` re-encodes as the single byte `FF`;
but `False` re-encodes as the EMPTY byte string (bit length 0 gives byte count
0), not as the single byte `00` stated by the specification: decoding the
canonical DER FALSE `01 01 00` and re-encoding yields `01 00`. -/
theorem boolean_false_encodes_empty :
    (∀ data, natFromBE data ≠ 0 → decodePrim .boolean data = .ok (.boolean true))
    ∧ (∀ data, natFromBE data = 0 → decodePrim .boolean data = .ok (.boolean false))
    ∧ boolEncodeBytes true = [0xff]
    ∧ boolEncodeBytes false = []
    ∧ boolEncodeBytes false ≠ [0x00]
    ∧ (fromBytes [0x01, 0x01, 0x00]).map Node.toBytes = .ok [0x01, 0x00] := by
  refine ⟨?_, ?_, rfl, rfl, by decide, rfl⟩
  · intro data h
    simp [decodePrim, bne_iff_ne, h]
  · intro data h
    simp [decodePrim, h]

/-- Witness for C2 at concrete value regions. -/
theorem boolean_codec_witness :
    decodePrim .boolean [0x2a] = .ok (.boolean true)
    ∧ decodePrim .boolean [0x00] = .ok (.boolean false) := by
  have h := boolean_false_encodes_empty
  exact ⟨h.1 [0x2a] (by norm_num [natFromBE]), h.2.1 [0x00] (by norm_num [natFromBE])⟩

/-- Claim C1 (code bug).  The round-trip law fails on the well-formed definite-length
DER buffer `01 01 00` (canonical Boolean FALSE): the parse succeeds but the
re-encoding is `01 00`, not the source bytes. -/
theorem der_roundtrip_fails_on_boolean_false :
    fromBytes [0x01, 0x01, 0x00] = .ok (.mk 1 false 0 (.boolean false) 2 3 false)
    ∧ (fromBytes [0x01, 0x01, 0x00]).map Node.toBytes = .ok [0x01, 0x00]
    ∧ [0x01, 0x00] ≠ [0x01, 0x01, 0x00] := ⟨rfl, rfl, by simp⟩

/-- Claim C4 counterexample.  Decoding the (BER-legal, non-minimal) Integer buffer
`02 02 00 01` succeeds with `totalLength = 4` and `headerLength = 2`, but the
re-encoded value `01` has one byte, so
`totalLength ≠ headerLength + len(encodedValue)`. -/
theorem total_length_encoded_value_mismatch :
    fromBytes [0x02, 0x02, 0x00, 0x01] = .ok (.mk 2 false 0 (.int 1) 2 4 false)
    ∧ (encodeVal (Val.int 1)).length = 1
    ∧ (4 : Nat) ≠ 2 + 1 := ⟨rfl, rfl, by norm_num⟩

/-- Claim C4 (amended).  For every node decoded from a definite-length header the
recorded total length is the header length plus the DECLARED value-region
length (the bytes consumed from the source), the header length is the number
of header bytes consumed, and the node is marked definite.  (The re-encoded
value `encodeVal` can be shorter than the declared region, see the
counterexample.) -/
theorem definite_total_length (fuel : Nat) (data : List Nat) (node : Node)
    (tag : Nat) (cons : Bool) (cls : Nat) (len : Nat) (rest : List Nat)
    (h1 : fromBytesF fuel data = some (.ok node))
    (h2 : decodeHeader data = .ok (tag, cons, cls, some len, rest)) :
    node.length = node.headerLength + len
    ∧ node.headerLength = data.length - rest.length
    ∧ node.indefinite = false := by
  cases fuel with
  | zero => simp [fromBytesF] at h1
  | succ f =>
    rw [fromBytesF, h2] at h1
    by_cases hl : rest.length < len
    · simp only [hl, if_true] at h1
      exact absurd h1 (by simp)
    · simp only [hl, if_false] at h1
      rcases hfc : findClass tag cons cls with p | _ <;> rw [hfc] at h1 <;> dsimp only at h1
      · rcases hdp : decodePrim p (rest.take len) with e | v <;> rw [hdp] at h1
        · exact absurd h1 (by simp)
        · simp only [Option.some.injEq, Except.ok.injEq] at h1
          subst h1
          exact ⟨rfl, rfl, rfl⟩
      · rcases hcl : childLoopF f (rest.take len) [] with _ | r
        · rw [hcl] at h1
          exact absurd h1 (by simp)
        · rcases r with e | xs <;> rw [hcl] at h1
          · exact absurd h1 (by simp)
          · simp only [Option.some.injEq, Except.ok.injEq] at h1
            subst h1
            exact ⟨rfl, rfl, rfl⟩

lemma decodeHeader_no_length_byte {data : List Nat} {tag : Nat} {cons : Bool} {cls : Nat}
    (h : decodeTag data = .ok (tag, cons, cls, [])) :
    decodeHeader data = .error .truncatedHeader := by
  simp [decodeHeader, h]

lemma decodeHeader_short_long_form {data : List Nat} {tag : Nat} {cons : Bool} {cls : Nat}
    {l : Nat} {rest2 : List Nat} (h : decodeTag data = .ok (tag, cons, cls, l :: rest2))
    (hl : 0x80 < l) (hk : rest2.length < l &&& 0x7f) :
    decodeHeader data = .error .badLength := by
  simp [decodeHeader, h, hl, hk]

lemma decodeHeader_indefinite {data : List Nat} {tag : Nat} {cons : Bool} {cls : Nat}
    {rest2 : List Nat} (h : decodeTag data = .ok (tag, cons, cls, 0x80 :: rest2)) :
    decodeHeader data = .ok (tag, cons, cls, none, rest2) := by
  simp [decodeHeader, h]

lemma fromBytes_of_header_error {data : List Nat} {e : DecodeErr}
    (h : decodeHeader data = .error e) : fromBytes data = .error e := by
  rw [fromBytes, fromBytesF, h]
  rfl

/-- Claim C7.  Malformed input always surfaces the matching error: an exhausted
cursor at the length-byte position is `truncatedHeader`; a long-form length
whose declared byte count exceeds the remaining bytes is `badLength`; a
declared definite length exceeding the remaining bytes is `truncatedInput`.
None of these inputs ever decodes to a node. -/
theorem malformed_input_errors :
    (∀ data tag cons cls, decodeTag data = .ok (tag, cons, cls, []) →
      fromBytes data = .error .truncatedHeader)
    ∧ (∀ data tag cons cls l rest2, decodeTag data = .ok (tag, cons, cls, l :: rest2) →
      0x80 < l → rest2.length < l &&& 0x7f → fromBytes data = .error .badLength)
    ∧ (∀ data tag cons cls len rest, decodeHeader data = .ok (tag, cons, cls, some len, rest) →
      rest.length < len → fromBytes data = .error .truncatedInput) := by
  refine ⟨?_, ?_, ?_⟩
  · intro data tag cons cls h
    exact fromBytes_of_header_error (decodeHeader_no_length_byte h)
  · intro data tag cons cls l rest2 h hl hk
    exact fromBytes_of_header_error (decodeHeader_short_long_form h hl hk)
  · intro data tag cons cls len rest h hlen
    rw [fromBytes, fromBytesF, h]
    simp only [hlen, if_true]
    rfl

/-- Witness for C7 on concrete truncated buffers. -/
theorem malformed_input_witness :
    fromBytes [0x30] = .error .truncatedHeader
    ∧ fromBytes [0x30, 0x82, 0x01] = .error .badLength
    ∧ fromBytes [0x30, 0x03, 0x00] = .error .truncatedInput := by
  refine ⟨?_, ?_, ?_⟩
  · exact malformed_input_errors.1 [0x30] 16 true 0 rfl
  · exact malformed_input_errors.2.1 [0x30, 0x82, 0x01] 16 true 0 0x82 [0x01] rfl
      (by norm_num) (by norm_num [and127_eq_mod])
  · exact malformed_input_errors.2.2 [0x30, 0x03, 0x00] 16 true 0 3 [0x00] rfl (by norm_num)

/-- `find_class` never resolves a primitive triple to a `Constructed` subclass
(the only classes carrying `_decode_indefinite`). -/
lemma findClass_primitive_not_childSeq (tag cls : Nat) :
    findClass tag false cls ≠ .childSeq := by
  unfold findClass
  simp only [Bool.false_eq_true, if_false]
  repeat' split
  all_goals simp

/-- Claim C10.  A header with the constructed flag clear but the indefinite length
form `0x80` always fails: every class the registry resolves for a primitive
triple lacks `_decode_indefinite`, so `from_bytes` raises (AttributeError)
and never returns a node. -/
theorem primitive_indefinite_always_errors :
    ∀ data tag cls rest2, decodeTag data = .ok (tag, false, cls, 0x80 :: rest2) →
      fromBytes data = .error .attributeError := by
  intro data tag cls rest2 h
  rw [fromBytes, fromBytesF, decodeHeader_indefinite h]
  dsimp only
  rcases hfc : findClass tag false cls with p | _
  · rfl
  · exact absurd hfc (findClass_primitive_not_childSeq tag cls)

/-- Witness for C10: a primitive Integer header with indefinite length. -/
theorem primitive_indefinite_witness : fromBytes [0x02, 0x80] = .error .attributeError :=
  primitive_indefinite_always_errors [0x02, 0x80] 2 0 [] rfl

/-- Witness for C4 at the concrete buffer `02 01 05`. -/
theorem definite_total_length_witness :
    (Node.mk 2 false 0 (.int 5) 2 3 false).length
      = (Node.mk 2 false 0 (.int 5) 2 3 false).headerLength + 1 :=
  (definite_total_length 4 [0x02, 0x01, 0x05] (.mk 2 false 0 (.int 5) 2 3 false)
    2 false 0 1 [0x05] rfl rfl).1

/-!
## Node equality lemmas (towards claim C8)
-/

mutual

theorem nodeEqb_refl : ∀ n : Node, nodeEqb n n = true
  | .mk t c k v _ _ _ => by
    simp only [nodeEqb, Bool.and_eq_true, beq_self_eq_true]
    exact ⟨⟨⟨trivial, trivial⟩, trivial⟩, valEqb_refl v⟩

theorem valEqb_refl : ∀ v : Val, valEqb v v = true
  | .raw bs => by simp [valEqb]
  | .boolean b => by simp [valEqb]
  | .int i => by simp [valEqb]
  | .null => by simp [valEqb]
  | .oid arcs => by simp [valEqb]
  | .str bs => by simp [valEqb]
  | .children xs => by simp only [valEqb]; exact childrenEqb_refl xs

theorem childrenEqb_refl : ∀ xs : List Node, childrenEqb xs xs = true
  | [] => rfl
  | x :: xs => by
    simp only [childrenEqb, Bool.and_eq_true]
    exact ⟨nodeEqb_refl x, childrenEqb_refl xs⟩

end

lemma childrenEqb_iff_forall2 : ∀ xs ys : List Node,
    childrenEqb xs ys = true ↔ List.Forall₂ (fun a b => nodeEqb a b = true) xs ys := by
  intro xs
  induction xs with
  | nil =>
    intro ys
    cases ys <;> simp [childrenEqb]
  | cons x xs ih =>
    intro ys
    cases ys with
    | nil => simp [childrenEqb]
    | cons y ys =>
      simp only [childrenEqb, Bool.and_eq_true, List.forall₂_cons, ih ys]

/-- Claim C8.  Node equality holds exactly when the `(tagNumber, tagClass,
constructed)` triples agree and the values are deeply equal -- for child lists,
order-sensitive elementwise equality -- while the bookkeeping fields never
participate; decoding the same bytes twice (the registry resolution is a pure
function of the triple) yields equal nodes, also for unregistered triples such
as `(7, Application, primitive)`. -/
theorem node_equality_triple_and_deep_value :
    (∀ t1 c1 k1 v1 h1 l1 i1 t2 c2 k2 v2 h2 l2 i2,
      nodeEqb (.mk t1 c1 k1 v1 h1 l1 i1) (.mk t2 c2 k2 v2 h2 l2 i2) = true
        ↔ (t1 = t2 ∧ k1 = k2 ∧ c1 = c2 ∧ valEqb v1 v2 = true))
    ∧ (∀ xs ys, childrenEqb xs ys = true
        ↔ List.Forall₂ (fun a b => nodeEqb a b = true) xs ys)
    ∧ (∀ t c k v h1 l1 i1 h2 l2 i2,
      nodeEqb (.mk t c k v h1 l1 i1) (.mk t c k v h2 l2 i2) = true)
    ∧ (∀ bs n1 n2, fromBytes bs = .ok n1 → fromBytes bs = .ok n2 → nodeEqb n1 n2 = true)
    ∧ fromBytes [0x47, 0x01, 0xab] = .ok (.mk 7 false 1 (.raw [0xab]) 2 3 false) := by
  refine ⟨?_, childrenEqb_iff_forall2, ?_, ?_, rfl⟩
  · intro t1 c1 k1 v1 h1 l1 i1 t2 c2 k2 v2 h2 l2 i2
    simp only [nodeEqb, Bool.and_eq_true, beq_iff_eq]
    tauto
  · intro t c k v h1 l1 i1 h2 l2 i2
    simp only [nodeEqb, Bool.and_eq_true, beq_self_eq_true]
    exact ⟨⟨⟨trivial, trivial⟩, trivial⟩, valEqb_refl v⟩
  · intro bs n1 n2 hd1 hd2
    have h := hd1.symm.trans hd2
    injection h with h
    rw [h]
    exact nodeEqb_refl n2

/-- Witness for C8: repeated decode of an unregistered-triple buffer gives
equal nodes. -/
theorem node_equality_witness :
    nodeEqb (.mk 7 false 1 (.raw [0xab]) 2 3 false) (.mk 7 false 1 (.raw [0xab]) 2 3 false)
      = true :=
  node_equality_triple_and_deep_value.2.2.2.1 [0x47, 0x01, 0xab] _ _ rfl rfl

/-!
## Indefinite-length decode lemmas (towards claim C6)
-/

/-- Each decoded child re-encodes to exactly the bytes it was decoded from:
child `c` was decoded from the front of the remaining buffer and consumed
`c.length` bytes. -/
def SegRoundTrip : List Node → List Nat → Prop
  | [], _ => True
  | c :: cs, data => c.toBytes = data.take c.length ∧ SegRoundTrip cs (data.drop c.length)

/-- Shape of a successful indefinite-length decode: the new children are some
non-EOC nodes followed by exactly one EOC node, and the reported offset spans
them all (EOC included). -/
lemma indefLoopF_ok_shape : ∀ fuel data offset acc children off,
    indefLoopF fuel data offset acc = some (.ok (children, off)) →
    ∃ mid last, children = acc ++ mid ++ [last]
      ∧ (∀ c ∈ mid, c.isEOC = false)
      ∧ last.isEOC = true
      ∧ off = offset + (mid.map Node.length).sum + last.length := by
  intro fuel
  induction fuel with
  | zero => intro data offset acc children off h; simp [indefLoopF] at h
  | succ f ih =>
    intro data offset acc children off h
    rw [indefLoopF] at h
    by_cases hoff : offset < data.length
    · simp only [hoff, if_true] at h
      rcases hfb : fromBytesF f (data.drop offset) with _ | r <;> rw [hfb] at h
      · exact absurd h (by simp)
      · rcases r with e | nd <;> dsimp only at h
        · exact absurd h (by simp)
        · by_cases heoc : nd.isEOC
          · simp only [heoc, if_true, Option.some.injEq, Except.ok.injEq,
              Prod.mk.injEq] at h
            refine ⟨[], nd, by simp [h.1.symm], by simp, heoc, by simp [h.2.symm]⟩
          · simp only [heoc, if_false, Bool.false_eq_true] at h
            obtain ⟨mid1, last1, hch, hmid, hlast, hoffeq⟩ := ih _ _ _ _ _ h
            refine ⟨nd :: mid1, last1, by simp [hch], ?_, hlast, ?_⟩
            · intro c hc
              rcases List.mem_cons.mp hc with rfl | hc
              · simpa using heoc
              · exact hmid c hc
            · simp only [List.map_cons, List.sum_cons] at hoffeq ⊢
              omega
    · simp only [hoff, if_false] at h
      exact absurd h (by simp)

/-- Conditional re-encoding of the children decoded by the indefinite loop:
when every child re-encodes to the bytes it consumed, the concatenated
re-encoding (EOC included) is exactly the consumed region. -/
lemma indefLoopF_reencode : ∀ fuel data offset acc children off newkids,
    indefLoopF fuel data offset acc = some (.ok (children, off)) →
    children = acc ++ newkids →
    SegRoundTrip newkids (data.drop offset) →
    encodeList newkids = (data.drop offset).take (off - offset) := by
  intro fuel
  induction fuel with
  | zero => intro data offset acc children off newkids h; simp [indefLoopF] at h
  | succ f ih =>
    intro data offset acc children off newkids h hch hseg
    rw [indefLoopF] at h
    by_cases hoff : offset < data.length
    · simp only [hoff, if_true] at h
      rcases hfb : fromBytesF f (data.drop offset) with _ | r <;> rw [hfb] at h
      · exact absurd h (by simp)
      · rcases r with e | nd <;> dsimp only at h
        · exact absurd h (by simp)
        · by_cases heoc : nd.isEOC
          · simp only [heoc, if_true, Option.some.injEq, Except.ok.injEq,
              Prod.mk.injEq] at h
            have hnk : newkids = [nd] := by
              have h2 := hch ▸ h.1.symm
              exact List.append_cancel_left h2
            subst hnk
            obtain ⟨hseg1, -⟩ := hseg
            simp only [encodeList, List.append_nil]
            rw [hseg1, ← h.2]
            congr 1
            omega
          · simp only [heoc, if_false, Bool.false_eq_true] at h
            obtain ⟨mid1, last1, hch1, -, -, hoffeq⟩ := indefLoopF_ok_shape _ _ _ _ _ _ h
            have hnk : newkids = nd :: (mid1 ++ [last1]) := by
              have h2 : acc ++ newkids = acc ++ ([nd] ++ (mid1 ++ [last1])) := by
                rw [← hch, hch1]
                simp [List.append_assoc]
              simpa using List.append_cancel_left h2
            subst hnk
            obtain ⟨hseg1, hseg2⟩ := hseg
            rw [List.drop_drop] at hseg2
            have hih := ih data (offset + nd.length) (acc ++ [nd]) children off
              (mid1 ++ [last1]) h (by rw [hch]; simp) hseg2
            have hoffge : offset + nd.length ≤ off := by omega
            simp only [encodeList]
            rw [hseg1, hih]
            have hsum : nd.length + (off - (offset + nd.length)) = off - offset := by omega
            rw [← hsum, List.take_add, List.drop_drop]
    · simp only [hoff, if_false] at h
      exact absurd h (by simp)

/-- Claim C6 (amended).  The indefinite-length constructed decode appends children
until the first EOC child, includes it in the child list, reports the consumed
length including the EOC node, and raises `UnterminatedIndefiniteObject` when
the buffer is exhausted without an EOC; a node decoded from the indefinite
form re-encodes as the `0x80` header plus the concatenated child re-encodings,
which reproduces the source BER bytes whenever each child reproduces the bytes
it consumed (for example the buffer `30 80 02 01 05 00 00`), though not for
children whose own re-encoding differs from their source region. -/
theorem indefinite_decode_behaviour :
    (∀ fuel data children off,
      indefLoopF fuel data 0 [] = some (.ok (children, off)) →
      ∃ mid last, children = mid ++ [last]
        ∧ (∀ c ∈ mid, c.isEOC = false)
        ∧ last.isEOC = true
        ∧ off = (mid.map Node.length).sum + last.length)
    ∧ (∀ fuel data offset acc, ¬ offset < data.length →
      indefLoopF (fuel + 1) data offset acc = some (.error .unterminatedIndefinite))
    ∧ fromBytes [0x30, 0x80, 0x02, 0x01, 0x05] = .error .unterminatedIndefinite
    ∧ (∀ fuel data children off,
      indefLoopF fuel data 0 [] = some (.ok (children, off)) →
      SegRoundTrip children data →
      encodeList children = data.take off)
    ∧ (∀ node : Node, node.indefinite = true →
      node.toBytes = encodeHeader node.tag node.cons node.cls none ++ encodeVal node.value)
    ∧ (fromBytes [0x30, 0x80, 0x02, 0x01, 0x05, 0x00, 0x00]).map Node.toBytes
        = .ok [0x30, 0x80, 0x02, 0x01, 0x05, 0x00, 0x00] := by
  refine ⟨?_, ?_, rfl, ?_, ?_, rfl⟩
  · intro fuel data children off h
    obtain ⟨mid, last, hch, hmid, hlast, hoff⟩ := indefLoopF_ok_shape _ _ _ _ _ _ h
    exact ⟨mid, last, by simpa using hch, hmid, hlast, by simpa using hoff⟩
  · intro fuel data offset acc hoff
    simp [indefLoopF, hoff]
  · intro fuel data children off h hseg
    have := indefLoopF_reencode _ _ _ _ _ _ children h (by simp) (by simpa using hseg)
    simpa using this
  · intro node h
    cases node with
    | mk t c k v hl l i =>
      simp only [Node.indefinite] at h
      subst h
      simp [Node.toBytes, Node.tag, Node.cons, Node.cls, Node.value]

/-- Claim C6 counterexample.  A BER buffer with a non-minimally encoded Integer
child: the decode succeeds and the child list still ends with the EOC node,
but the re-encoding `30 80 02 01 01 00 00` differs from the source bytes
`30 80 02 02 00 01 00 00`. -/
theorem indefinite_reencode_counterexample :
    fromBytes [0x30, 0x80, 0x02, 0x02, 0x00, 0x01, 0x00, 0x00]
      = .ok (.mk 16 true 0 (.children [.mk 2 false 0 (.int 1) 2 4 false,
          .mk 0 false 0 (.raw []) 2 2 false]) 2 8 true)
    ∧ (Node.mk 0 false 0 (.raw []) 2 2 false).isEOC = true
    ∧ (fromBytes [0x30, 0x80, 0x02, 0x02, 0x00, 0x01, 0x00, 0x00]).map Node.toBytes
        = .ok [0x30, 0x80, 0x02, 0x01, 0x01, 0x00, 0x00]
    ∧ [0x30, 0x80, 0x02, 0x01, 0x01, 0x00, 0x00]
        ≠ [0x30, 0x80, 0x02, 0x02, 0x00, 0x01, 0x00, 0x00] := by
  refine ⟨rfl, rfl, rfl, by simp⟩

/-- Witness for C6 at the concrete indefinite buffer `30 80 02 01 05 00 00`:
its value region decodes to an Integer child followed by the EOC child, with
consumed offset 5. -/
theorem indefinite_decode_witness :
    ∃ mid last,
      ([Node.mk 2 false 0 (.int 5) 2 3 false, Node.mk 0 false 0 (.raw []) 2 2 false]
          : List Node) = mid ++ [last]
        ∧ (∀ c ∈ mid, c.isEOC = false)
        ∧ last.isEOC = true
        ∧ (5 : Nat) = (mid.map Node.length).sum + last.length :=
  indefinite_decode_behaviour.1 5 [0x02, 0x01, 0x05, 0x00, 0x00]
    [Node.mk 2 false 0 (.int 5) 2 3 false, Node.mk 0 false 0 (.raw []) 2 2 false] 5 rfl

/-!
## Termination of the decoder (towards claim C9)

Every loop strictly consumes input: the varint loop pops a byte per step, a
successful header consumes at least two bytes, so every decoded node spans at
least two and at most all of its buffer, and both child loops advance by each
child's span.  Fuel `data.length + 1` therefore always suffices.
-/

lemma dvLoop_suffix : ∀ l acc cur n rest, dvLoop acc cur l = .ok (n, rest) →
    rest.length ≤ l.length := by
  intro l
  induction l with
  | nil =>
    intro acc cur n rest h
    rcases hc : cur.testBit 7 <;> simp [dvLoop, hc] at h
    simp [h.2.symm]
  | cons b l1 ih =>
    intro acc cur n rest h
    rcases hc : cur.testBit 7 <;> simp only [dvLoop, hc, if_true, if_false,
      Bool.false_eq_true] at h
    · simp only [Except.ok.injEq, Prod.mk.injEq] at h
      simp [← h.2]
    · have := ih _ _ _ _ h
      simp
      omega

lemma decodeVarint_suffix {d : List Nat} {n : Nat} {rest : List Nat}
    (h : decodeVarint d = .ok (n, rest)) : rest.length < d.length := by
  cases d with
  | nil => simp [decodeVarint] at h
  | cons b r =>
    have := dvLoop_suffix r _ _ _ _ h
    simp
    omega

lemma decodeTag_suffix {data : List Nat} {tag : Nat} {cons : Bool} {cls : Nat}
    {rest : List Nat} (h : decodeTag data = .ok (tag, cons, cls, rest)) :
    rest.length < data.length := by
  cases data with
  | nil => simp [decodeTag] at h
  | cons b r =>
    simp only [decodeTag] at h
    split at h
    · rcases hv : decodeVarint r with e | p <;> rw [hv] at h
      · simp [Except.map] at h
      · simp only [Except.map, Except.ok.injEq, Prod.mk.injEq] at h
        have := decodeVarint_suffix hv
        have h4 := h.2.2.2
        simp only [← h4]
        simp
        omega
    · simp only [Except.ok.injEq, Prod.mk.injEq] at h
      simp [← h.2.2.2]

lemma decodeHeader_suffix {data : List Nat} {tag : Nat} {cons : Bool} {cls : Nat}
    {lenO : Option Nat} {rest : List Nat}
    (h : decodeHeader data = .ok (tag, cons, cls, lenO, rest)) :
    rest.length + 2 ≤ data.length := by
  unfold decodeHeader at h
  rcases ht : decodeTag data with e | p <;> rw [ht] at h
  · simp at h
  · obtain ⟨tag1, cons1, cls1, rest1⟩ := p
    have h1 := decodeTag_suffix ht
    cases rest1 with
    | nil => simp at h
    | cons l rest2 =>
      simp only [List.length_cons] at h1
      dsimp only at h
      split at h
      · split at h
        · simp at h
        · simp only [Except.ok.injEq, Prod.mk.injEq] at h
          have h2 := h.2.2.2.2
          simp only [← h2, List.length_drop]
          omega
      · split at h <;>
        · simp only [Except.ok.injEq, Prod.mk.injEq] at h
          have h2 := h.2.2.2.2
          simp only [← h2]
          omega

/-- A successfully decoded node spans at least its two header bytes and at
most its whole buffer; the indefinite loop strictly advances its offset and
never reports past the end of the buffer. -/
lemma decode_progress : ∀ fuel,
    (∀ data nd, fromBytesF fuel data = some (.ok nd) →
      2 ≤ nd.length ∧ nd.length ≤ data.length)
    ∧ (∀ data offset acc xs off, offset ≤ data.length →
      indefLoopF fuel data offset acc = some (.ok (xs, off)) →
      offset < off ∧ off ≤ data.length) := by
  intro fuel
  induction fuel with
  | zero =>
    constructor
    · intro data nd h
      simp [fromBytesF] at h
    · intro data offset acc xs off hle h
      simp [indefLoopF] at h
  | succ f ih =>
    obtain ⟨ihP, ihQ⟩ := ih
    constructor
    · intro data nd h
      rw [fromBytesF] at h
      rcases hh : decodeHeader data with e | p <;> rw [hh] at h
      · simp at h
      · obtain ⟨tag, cons, cls, lenO, arr⟩ := p
        have hsuf := decodeHeader_suffix hh
        dsimp only at h
        cases lenO with
        | some len =>
          by_cases hl : arr.length < len
          · simp [hl] at h
          · simp only [hl, if_false] at h
            rcases hfc : findClass tag cons cls with pc | _ <;> rw [hfc] at h <;>
              dsimp only at h
            · rcases hdp : decodePrim pc (arr.take len) with e | v <;> rw [hdp] at h
              · simp at h
              · simp only [Option.some.injEq, Except.ok.injEq] at h
                rw [← h]
                simp only [Node.length]
                omega
            · rcases hcl : childLoopF f (arr.take len) [] with _ | r <;> rw [hcl] at h
              · simp at h
              · rcases r with e | xs <;> dsimp only at h
                · simp at h
                · simp only [Option.some.injEq, Except.ok.injEq] at h
                  rw [← h]
                  simp only [Node.length]
                  omega
        | none =>
          dsimp only at h
          rcases hfc : findClass tag cons cls with pc | _ <;> rw [hfc] at h <;>
            dsimp only at h
          · simp at h
          · rcases hil : indefLoopF f arr 0 [] with _ | r <;> rw [hil] at h
            · simp at h
            · rcases r with e | q <;> dsimp only at h
              · simp at h
              · obtain ⟨xs, off⟩ := q
                dsimp only at h
                simp only [Option.some.injEq, Except.ok.injEq] at h
                obtain ⟨hoff1, hoff2⟩ := ihQ arr 0 [] xs off (Nat.zero_le _) hil
                rw [← h]
                simp only [Node.length]
                omega
    · intro data offset acc xs off hle h
      rw [indefLoopF] at h
      by_cases hoff : offset < data.length
      · simp only [hoff, if_true] at h
        rcases hfb : fromBytesF f (data.drop offset) with _ | r <;> rw [hfb] at h
        · simp at h
        · rcases r with e | nd <;> dsimp only at h
          · simp at h
          · obtain ⟨hnd1, hnd2⟩ := ihP _ _ hfb
            rw [List.length_drop] at hnd2
            by_cases heoc : nd.isEOC
            · simp only [heoc, if_true, Option.some.injEq, Except.ok.injEq,
                Prod.mk.injEq] at h
              omega
            · simp only [heoc, if_false, Bool.false_eq_true] at h
              have := ihQ data (offset + nd.length) (acc ++ [nd]) xs off (by omega) h
              omega
      · simp [hoff] at h

/-- Fuel monotonicity: a settled result (success or error) is stable under
more fuel. -/
lemma decode_mono : ∀ fuel,
    (∀ data r, fromBytesF fuel data = some r → fromBytesF (fuel + 1) data = some r)
    ∧ (∀ data acc r, childLoopF fuel data acc = some r →
        childLoopF (fuel + 1) data acc = some r)
    ∧ (∀ data offset acc r, indefLoopF fuel data offset acc = some r →
        indefLoopF (fuel + 1) data offset acc = some r) := by
  intro fuel
  induction fuel with
  | zero =>
    refine ⟨?_, ?_, ?_⟩
    · intro data r h
      simp [fromBytesF] at h
    · intro data acc r h
      simp [childLoopF] at h
    · intro data offset acc r h
      simp [indefLoopF] at h
  | succ f ih =>
    obtain ⟨ihF, ihC, ihI⟩ := ih
    refine ⟨?_, ?_, ?_⟩
    · intro data r h
      rw [fromBytesF] at h
      rw [fromBytesF]
      rcases hh : decodeHeader data with e | p <;> (try rw [hh] at h) <;> dsimp only at h ⊢
      · exact h
      · obtain ⟨tag, cons, cls, lenO, arr⟩ := p
        dsimp only at h ⊢
        cases lenO with
        | some len =>
          by_cases hl : arr.length < len
          · simp only [hl, if_true] at h ⊢
            exact h
          · simp only [hl, if_false] at h ⊢
            rcases hfc : findClass tag cons cls with pc | _ <;> (try rw [hfc] at h) <;>
              dsimp only at h ⊢
            · exact h
            · rcases hcl : childLoopF f (arr.take len) [] with _ | r1 <;> (try rw [hcl] at h)
              · simp at h
              · rw [ihC _ _ _ hcl]
                exact h
        | none =>
          dsimp only at h ⊢
          rcases hfc : findClass tag cons cls with pc | _ <;> (try rw [hfc] at h) <;>
            dsimp only at h ⊢
          · exact h
          · rcases hil : indefLoopF f arr 0 [] with _ | r1 <;> (try rw [hil] at h)
            · simp at h
            · rw [ihI _ _ _ _ hil]
              exact h
    · intro data acc r h
      cases data with
      | nil =>
        rw [childLoopF] at h
        rw [childLoopF]
        exact h
      | cons b rest =>
        simp only [childLoopF] at h ⊢
        rcases hfb : fromBytesF f (b :: rest) with _ | r1 <;> (try rw [hfb] at h)
        · simp at h
        · rw [ihF _ _ hfb]
          rcases r1 with e | nd <;> dsimp only at h ⊢
          · exact h
          · exact ihC _ _ _ h
    · intro data offset acc r h
      rw [indefLoopF] at h
      rw [indefLoopF]
      by_cases hoff : offset < data.length
      · simp only [hoff, if_true] at h ⊢
        rcases hfb : fromBytesF f (data.drop offset) with _ | r1 <;> (try rw [hfb] at h)
        · simp at h
        · rw [ihF _ _ hfb]
          rcases r1 with e | nd <;> dsimp only at h ⊢
          · exact h
          · by_cases heoc : nd.isEOC
            · simp only [heoc, if_true] at h ⊢
              exact h
            · simp only [heoc, if_false, Bool.false_eq_true] at h ⊢
              exact ihI _ _ _ _ h
      · simp only [hoff, if_false] at h ⊢
        exact h

/-- Fuel monotonicity, arbitrary increments. -/
lemma fromBytesF_mono_le {f1 f2 : Nat} (hle : f1 ≤ f2) :
    ∀ data r, fromBytesF f1 data = some r → fromBytesF f2 data = some r := by
  induction f2 with
  | zero =>
    intro data r h
    obtain rfl : f1 = 0 := by omega
    exact h
  | succ f2 ih =>
    intro data r h
    rcases Nat.lt_or_ge f1 (f2 + 1) with hlt | hge
    · exact (decode_mono f2).1 data r (ih (by omega) data r h)
    · obtain rfl : f1 = f2 + 1 := by omega
      exact h

/-- Fuel sufficiency: `data.length + 1` fuel always settles the decoder (the
loops need two spare units relative to their remaining buffer). -/
lemma decode_fuel_sufficient : ∀ fuel,
    (∀ data, data.length + 1 ≤ fuel → (fromBytesF fuel data).isSome)
    ∧ (∀ data acc, data.length + 2 ≤ fuel → (childLoopF fuel data acc).isSome)
    ∧ (∀ data offset acc, data.length - offset + 2 ≤ fuel →
        (indefLoopF fuel data offset acc).isSome) := by
  intro fuel
  induction fuel with
  | zero =>
    refine ⟨?_, ?_, ?_⟩ <;> intro _ <;> intros <;> omega
  | succ f ih =>
    obtain ⟨S1, S2, S3⟩ := ih
    refine ⟨?_, ?_, ?_⟩
    · intro data hfuel
      rw [fromBytesF]
      rcases hh : decodeHeader data with e | p
      · simp
      · obtain ⟨tag, cons, cls, lenO, arr⟩ := p
        have hsuf := decodeHeader_suffix hh
        dsimp only
        cases lenO with
        | some len =>
          by_cases hl : arr.length < len
          · simp [hl]
          · simp only [hl, if_false]
            rcases hfc : findClass tag cons cls with pc | _ <;> dsimp only
            · rcases decodePrim pc (arr.take len) with e | v <;> simp
            · have hS := S2 (arr.take len) [] (by
                rw [List.length_take]
                omega)
              obtain ⟨r1, hr1⟩ := Option.isSome_iff_exists.mp hS
              rw [hr1]
              rcases r1 with e | xs <;> simp
        | none =>
          dsimp only
          rcases hfc : findClass tag cons cls with pc | _ <;> dsimp only
          · simp
          · have hS := S3 arr 0 [] (by omega)
            obtain ⟨r1, hr1⟩ := Option.isSome_iff_exists.mp hS
            rw [hr1]
            rcases r1 with e | q <;> [skip; obtain ⟨xs, off⟩ := q] <;> simp
    · intro data acc hfuel
      cases data with
      | nil => simp [childLoopF]
      | cons b rest =>
        simp only [childLoopF]
        have hS := S1 (b :: rest) (by simp at hfuel ⊢; omega)
        obtain ⟨r1, hr1⟩ := Option.isSome_iff_exists.mp hS
        rw [hr1]
        rcases r1 with e | nd <;> dsimp only
        · simp
        · have hnd := ((decode_progress f).1 _ _ hr1).1
          exact S2 _ _ (by
            rw [List.length_drop]
            simp only [List.length_cons] at hfuel ⊢
            omega)
    · intro data offset acc hfuel
      rw [indefLoopF]
      by_cases hoff : offset < data.length
      · simp only [hoff, if_true]
        have hS := S1 (data.drop offset) (by rw [List.length_drop]; omega)
        obtain ⟨r1, hr1⟩ := Option.isSome_iff_exists.mp hS
        rw [hr1]
        rcases r1 with e | nd <;> dsimp only
        · simp
        · have hnd := ((decode_progress f).1 _ _ hr1).1
          by_cases heoc : nd.isEOC
          · simp [heoc]
          · simp only [heoc, if_false, Bool.false_eq_true]
            exact S3 _ _ _ (by omega)
      · simp [hoff]

/-- Claim C9.  Every decode terminates within a step count bounded by the input
size: with any fuel exceeding the buffer length the decoder settles (returns a
node or an error, never runs out of fuel), and the result does not depend on
the fuel. -/
theorem decoder_terminates_within_input_bound :
    ∀ data fuel, data.length < fuel →
      (fromBytesF fuel data).isSome
      ∧ fromBytesF fuel data = fromBytesF (data.length + 1) data := by
  intro data fuel h
  have h1 := (decode_fuel_sufficient (data.length + 1)).1 data (by omega)
  obtain ⟨r, hr⟩ := Option.isSome_iff_exists.mp h1
  have h2 := fromBytesF_mono_le (show data.length + 1 ≤ fuel by omega) data r hr
  rw [h2, hr]
  simp

/-- Witness for C9: with fuel 17 on a three-byte buffer the decoder settles
and agrees with the minimal-fuel run. -/
theorem decoder_terminates_witness : (fromBytesF 17 [0x02, 0x01, 0x05]).isSome :=
  (decoder_terminates_within_input_bound [0x02, 0x01, 0x05] 17 (by norm_num)).1
